import Mathlib

/-!
Verification development for the MinusPod podcast ad-removal service.

The definitions below are shallow embeddings of the Python sources:
* `src/processing_queue.py` — the single-slot processing queue (lease + lock),
* `src/main.py` — the JIT serve path for episode audio,
* `src/audio_analysis/base.py` — signal/metrics data structures and their
  dict (de)serialization,
* `src/audio_analysis/volume_analyzer.py` — loudness framing, baseline and
  volume-anomaly detection.

Machine floats of the source are modelled as rationals; `time.time()` values
are passed explicitly as rational `now` arguments; reads of the external
StatusService and of ffmpeg/ffprobe are modelled as explicit oracle inputs.
-/

set_option linter.unusedVariables false

namespace MinusPod

/-! ## ProcessingQueue (src/processing_queue.py)

State of the singleton: the `threading.Lock` (`tokenHeld` — a Python `Lock`
can be released by any thread, and `release` raises `RuntimeError` only when
the lock is not held at all, which the source always swallows), the
`_current_episode` pair and `_acquired_at` timestamp. -/

/-- A job identity: `(podcast slug, episode id)`. -/
abbrev Job := String × String

/-- `MAX_JOB_DURATION = 1800` seconds (30 minutes). -/
def MAX_JOB_DURATION : ℚ := 1800

/-- The fields of the `ProcessingQueue` singleton together with the state of
its underlying `threading.Lock`. -/
structure QState where
  tokenHeld : Bool
  currentEpisode : Option Job
  acquiredAt : Option ℚ
deriving DecidableEq, Repr

/-- State installed by `__new__`: lock free, no episode, no timestamp. -/
def initQState : QState := ⟨false, none, none⟩

/-- One read of `StatusService().get_status().current_job`: the whole sync
body is wrapped in `try/except`, so a read can also fail (no-op). -/
inductive ExtRead where
  | fail : ExtRead
  | ok : Option Job → ExtRead
deriving DecidableEq

/-- `ProcessingQueue._is_stale`. -/
def isStale (s : QState) (now : ℚ) : Bool :=
  match s.currentEpisode, s.acquiredAt with
  | some _, some t => decide (now - t > MAX_JOB_DURATION)
  | _, _ => false

/-- `ProcessingQueue._force_clear_stale`: on staleness, clear both fields and
release the lock if held (the `RuntimeError` on an unheld lock is swallowed,
so the lock is free afterwards either way). -/
def forceClearStale (s : QState) (now : ℚ) : QState :=
  if isStale s now then ⟨false, none, none⟩ else s

/-- `ProcessingQueue._sync_with_status_service`: if the StatusService read
succeeds, reports no current job, and the local state records an episode,
clear the fields and release the lock; otherwise leave the state alone. -/
def syncWithStatusService (s : QState) (e : ExtRead) : QState :=
  match e with
  | .fail => s
  | .ok currentJob =>
      if currentJob.isNone ∧ s.currentEpisode.isSome then ⟨false, none, none⟩
      else s

/-- `ProcessingQueue.acquire`: stale clear, StatusService sync, then the real
lock acquire.  In this sequential model no other thread runs during the call,
so a blocking acquire with a bounded timeout succeeds exactly when the
non-blocking one does: iff the lock is free after the two clears. -/
def acquire (s : QState) (slug episode_id : String) (now : ℚ) (e : ExtRead) :
    Bool × QState :=
  let s1 := forceClearStale s now
  let s2 := syncWithStatusService s1 e
  if s2.tokenHeld then (false, s2)
  else (true, ⟨true, some (slug, episode_id), some now⟩)

/-- `ProcessingQueue.release`: release the lock (swallowing the
`RuntimeError` when it is not held) and clear both fields — with no check of
who is calling. -/
def release (s : QState) : QState := ⟨false, none, none⟩

/-- `ProcessingQueue.get_current`: staleness check, then return the episode. -/
def get_current (s : QState) (now : ℚ) : Option Job × QState :=
  let s1 := forceClearStale s now
  (s1.currentEpisode, s1)

/-- `ProcessingQueue.is_processing`: staleness check, then compare. -/
def is_processing (s : QState) (slug episode_id : String) (now : ℚ) :
    Bool × QState :=
  let s1 := forceClearStale s now
  (decide (s1.currentEpisode = some (slug, episode_id)), s1)

/-- `ProcessingQueue.is_busy`: staleness check, StatusService sync, then
report whether an episode is recorded. -/
def is_busy (s : QState) (now : ℚ) (e : ExtRead) : Bool × QState :=
  let s1 := forceClearStale s now
  let s2 := syncWithStatusService s1 e
  (s2.currentEpisode.isSome, s2)

/-- The token/holder invariant of the spec: the lock is held iff an episode
is recorded. -/
def qInv (s : QState) : Prop := s.tokenHeld = true ↔ s.currentEpisode ≠ none

/-- One completed `ProcessingQueue` operation. -/
inductive QStep : QState → QState → Prop
  | acquire (s : QState) (slug eid : String) (now : ℚ) (e : ExtRead) :
      QStep s (acquire s slug eid now e).2
  | release (s : QState) : QStep s (release s)
  | forceClear (s : QState) (now : ℚ) : QStep s (forceClearStale s now)
  | sync (s : QState) (e : ExtRead) : QStep s (syncWithStatusService s e)
  | getCurrent (s : QState) (now : ℚ) : QStep s (get_current s now).2
  | isProcessing (s : QState) (slug eid : String) (now : ℚ) :
      QStep s (is_processing s slug eid now).2
  | isBusy (s : QState) (now : ℚ) (e : ExtRead) : QStep s (is_busy s now e).2

/-- States reachable from the freshly constructed singleton by completed
operations. -/
def QReachable (s : QState) : Prop :=
  Relation.ReflTransGen QStep initQState s

lemma qInv_clear : qInv ⟨false, none, none⟩ := by simp [qInv]

lemma qInv_forceClearStale {s : QState} (h : qInv s) (now : ℚ) :
    qInv (forceClearStale s now) := by
  unfold forceClearStale
  split
  · exact qInv_clear
  · exact h

lemma qInv_sync {s : QState} (h : qInv s) (e : ExtRead) :
    qInv (syncWithStatusService s e) := by
  unfold syncWithStatusService
  cases e with
  | fail => exact h
  | ok j =>
      dsimp only
      split
      · exact qInv_clear
      · exact h

lemma qInv_step {s s' : QState} (h : qInv s) (hs : QStep s s') : qInv s' := by
  cases hs with
  | acquire slug eid now e =>
      unfold acquire
      dsimp only
      split
      · exact qInv_sync (qInv_forceClearStale h now) e
      · simp [qInv]
  | release => exact qInv_clear
  | forceClear now => exact qInv_forceClearStale h now
  | sync e => exact qInv_sync h e
  | getCurrent now => exact qInv_forceClearStale h now
  | isProcessing slug eid now => exact qInv_forceClearStale h now
  | isBusy now e => exact qInv_sync (qInv_forceClearStale h now) e

/-- **C4.** After every completed `ProcessingQueue` operation (acquire,
release, staleness clear, StatusService reconciliation, or any of the
inspection calls), the underlying lock is held if and only if an episode is
recorded in the lease: no reachable post-operation state has the token held
with no recorded holder, or a recorded holder with the token free. -/
theorem token_iff_holder_invariant (s : QState) (h : QReachable s) :
    s.tokenHeld = true ↔ s.currentEpisode ≠ none := by
  induction h with
  | refl => exact qInv_clear
  | tail _ hstep ih => exact qInv_step ih hstep

/-- Witness for C4: the invariant holds in the concrete state reached by one
successful `acquire` from the initial state. -/
theorem token_iff_holder_invariant_witness :
    (acquire initQState "pod" "ep1" 0 ExtRead.fail).2.tokenHeld = true ↔
      (acquire initQState "pod" "ep1" 0 ExtRead.fail).2.currentEpisode ≠ none :=
  token_iff_holder_invariant _
    (Relation.ReflTransGen.single (QStep.acquire initQState "pod" "ep1" 0 ExtRead.fail))

/-! ## Serve path (src/main.py, `serve_episode`)

Decision logic of the `/episodes/<slug>/<episode_id>.mp3` route after the
feed-map and episode-id validation succeeded.  The external collaborators
(storage, RSS fetch, the processing pipeline) appear as explicit inputs:
`status` and `original_url_rec` come from the persisted episode record,
`fileExists` is the cached-artifact check, `rssCached`/`fetchOk`/`feedEntry`
describe the RSS lookup of the original URL, and `pipelineOk`/`fileAfter`
describe the outcome of the synchronous `process_episode` call.

The process-wide `ProcessingQueue` state is threaded through as `q` so that
its (non-)use is visible: `main.py` never imports `processing_queue`, and
neither `serve_episode` nor `process_episode` touches the queue. -/

/-- The user-visible outcome of one `serve_episode` request. -/
inductive ServeOutcome where
  | cachedFile : ServeOutcome
  | redirectFailed : String → ServeOutcome
  | notFound : ServeOutcome
  | processing503 : ServeOutcome
  | fetchFail503 : ServeOutcome
  | freshFile : String → ServeOutcome
  | fallbackRedirect : String → ServeOutcome
deriving DecidableEq, Repr

/-- `serve_episode` from `src/main.py`.  When the record says `processed`
but the cached file is missing, the source sets `status = None` inside the
first `if` branch and control falls past the `elif` chain straight into the
process-now path; the normalisation on the first line models that. -/
def serve_episode (q : QState) (status : Option String)
    (original_url_rec : Option String) (fileExists rssCached fetchOk : Bool)
    (feedEntry : Option String) (pipelineOk fileAfter : Bool) :
    ServeOutcome × QState :=
  let status := if status = some "processed" ∧ fileExists = false then none
                else status
  if status = some "processed" then (.cachedFile, q)
  else if status = some "failed" then
    match original_url_rec with
    | some u => (.redirectFailed u, q)
    | none => (.notFound, q)
  else if status = some "processing" then (.processing503, q)
  else
    if rssCached = false then (.notFound, q)
    else if fetchOk = false then (.fetchFail503, q)
    else
      match feedEntry with
      | none => (.notFound, q)
      | some u =>
          if pipelineOk ∧ fileAfter then (.freshFile u, q)
          else (.fallbackRedirect u, q)

/-- **C1, failing-input evaluation.** For an episode whose record status is
missing — or `processed` with the cached file absent — `serve_episode` runs
the full pipeline synchronously for **every** `ProcessingQueue` state `q`,
including a busy one: the outcome depends only on the pipeline result, never
on `q`, no busy/"try again" response is produced for these statuses, and the
queue state is returned untouched (no acquire is ever attempted — `main.py`
does not even import `processing_queue`). -/
theorem serve_episode_ignores_processing_queue
    (q : QState) (u : String) (pipelineOk fileAfter : Bool) :
    serve_episode q none none false true true (some u) pipelineOk fileAfter =
      ((if pipelineOk ∧ fileAfter then ServeOutcome.freshFile u
        else ServeOutcome.fallbackRedirect u), q) ∧
    serve_episode q (some "processed") none false true true (some u)
        pipelineOk fileAfter =
      ((if pipelineOk ∧ fileAfter then ServeOutcome.freshFile u
        else ServeOutcome.fallbackRedirect u), q) := by
  cases pipelineOk <;> cases fileAfter <;> simp [serve_episode]

/-! ## Audio analysis data structures (src/audio_analysis/base.py) -/

/-- A JSON-style value stored in a `details` mapping. -/
inductive DVal where
  | num : ℚ → DVal
  | str : String → DVal
deriving DecidableEq, Repr

/-- `AudioSegmentSignal` (dataclass). -/
structure AudioSegmentSignal where
  start : ℚ
  end_ : ℚ
  signal_type : String
  confidence : ℚ
  details : List (String × DVal)
deriving DecidableEq, Repr

/-- `AudioSegmentSignal.duration` property. -/
def AudioSegmentSignal.duration (s : AudioSegmentSignal) : ℚ := s.end_ - s.start

/-- The dictionary produced by `AudioSegmentSignal.to_dict` (keys `start`,
`end`, `signal_type`, `confidence`, `duration`, `details`). -/
structure SignalDict where
  start : ℚ
  end_ : ℚ
  signal_type : String
  confidence : ℚ
  duration : ℚ
  details : List (String × DVal)
deriving DecidableEq, Repr

/-- `AudioSegmentSignal.to_dict`. -/
def AudioSegmentSignal.to_dict (s : AudioSegmentSignal) : SignalDict :=
  ⟨s.start, s.end_, s.signal_type, s.confidence, s.duration, s.details⟩

/-- `AudioSegmentSignal.from_dict` (reads `start`, `end`, `signal_type`,
`confidence` and `details`; the stored `duration` is ignored). -/
def AudioSegmentSignal.from_dict (d : SignalDict) : AudioSegmentSignal :=
  ⟨d.start, d.end_, d.signal_type, d.confidence, d.details⟩

/-- `ConversationMetrics` (dataclass). -/
structure ConversationMetrics where
  num_speakers : ℤ
  speaker_balance : ℚ
  avg_turn_duration : ℚ
  turn_frequency : ℚ
  is_conversational : Bool
  primary_speaker : Option String
deriving DecidableEq, Repr

/-- The `conversation_metrics` sub-dictionary written by
`AudioAnalysisResult.to_dict`. -/
structure CMDict where
  num_speakers : ℤ
  speaker_balance : ℚ
  avg_turn_duration : ℚ
  turn_frequency : ℚ
  is_conversational : Bool
  primary_speaker : Option String
deriving DecidableEq, Repr

/-- `AudioAnalysisResult` (dataclass). -/
structure AudioAnalysisResult where
  signals : List AudioSegmentSignal
  loudness_baseline : Option ℚ
  speaker_count : Option ℤ
  conversation_metrics : Option ConversationMetrics
  analysis_time_seconds : ℚ
  errors : List String
deriving DecidableEq, Repr

/-- The dictionary produced by `AudioAnalysisResult.to_dict`; the
`conversation_metrics` key is written only when metrics are present. -/
structure ResultDict where
  signals : List SignalDict
  loudness_baseline : Option ℚ
  speaker_count : Option ℤ
  analysis_time_seconds : ℚ
  errors : List String
  conversation_metrics : Option CMDict
deriving DecidableEq, Repr

/-- `AudioAnalysisResult.to_dict`. -/
def AudioAnalysisResult.to_dict (r : AudioAnalysisResult) : ResultDict :=
  { signals := r.signals.map AudioSegmentSignal.to_dict
    loudness_baseline := r.loudness_baseline
    speaker_count := r.speaker_count
    analysis_time_seconds := r.analysis_time_seconds
    errors := r.errors
    conversation_metrics := r.conversation_metrics.map fun cm =>
      ⟨cm.num_speakers, cm.speaker_balance, cm.avg_turn_duration,
       cm.turn_frequency, cm.is_conversational, cm.primary_speaker⟩ }

/-- `AudioAnalysisResult.from_dict`. -/
def AudioAnalysisResult.from_dict (d : ResultDict) : AudioAnalysisResult :=
  { signals := d.signals.map AudioSegmentSignal.from_dict
    loudness_baseline := d.loudness_baseline
    speaker_count := d.speaker_count
    conversation_metrics := d.conversation_metrics.map fun cm =>
      ⟨cm.num_speakers, cm.speaker_balance, cm.avg_turn_duration,
       cm.turn_frequency, cm.is_conversational, cm.primary_speaker⟩
    analysis_time_seconds := d.analysis_time_seconds
    errors := d.errors }

/-- **C8.** Serialization round-trips exactly: `from_dict (to_dict s)`
restores every field of an `AudioSegmentSignal` (start, end, signal type,
confidence, details), and for every `AudioAnalysisResult` the embedded
`ConversationMetrics` — all six fields including the optional
`primary_speaker` — survive `to_dict`/`from_dict` unchanged. -/
theorem serialization_roundtrip_exact :
    (∀ s : AudioSegmentSignal, AudioSegmentSignal.from_dict s.to_dict = s) ∧
    (∀ r : AudioAnalysisResult,
      (AudioAnalysisResult.from_dict r.to_dict).conversation_metrics =
        r.conversation_metrics) := by
  constructor
  · intro s
    cases s
    rfl
  · intro r
    cases r with
    | mk signals lb sc cm ats errs =>
        cases cm with
        | none => rfl
        | some m => cases m; rfl

/-! ## VolumeAnalyzer (src/audio_analysis/volume_analyzer.py)

Floats are modelled as rationals.  `ffmpeg`/`ffprobe` invocations appear as
oracle inputs: `_get_duration` as an `Option ℚ`, and each `_measure_frame`
subprocess call as an `FfmpegResult` chosen by an oracle function of the
frame's `(start, duration)`. -/

/-- `LoudnessFrame` (dataclass in base.py). -/
structure LoudnessFrame where
  start : ℚ
  end_ : ℚ
  loudness_lufs : ℚ
  peak_dbfs : ℚ
deriving DecidableEq, Repr

/-- Python's `round(q, 1)`: round to one decimal place, ties to even. -/
def roundTenth (q : ℚ) : ℚ :=
  let y := 10 * q
  let f := ⌊y⌋
  let frac := y - f
  (if frac < 1 / 2 then (f : ℚ)
   else if frac > 1 / 2 then (f : ℚ) + 1
   else if f % 2 = 0 then (f : ℚ) else (f : ℚ) + 1) / 10

/-- The `AudioSegmentSignal` constructed when `_find_anomalies` emits a run:
mean absolute deviation, `confidence = min(0.5 + mean/10, 0.95)`, and the
`details` mapping in the source's insertion order. -/
def mkAnomalySignal (baseline aStart aEnd : ℚ) (aType : String)
    (devs : List ℚ) : AudioSegmentSignal :=
  let avg := devs.sum / (devs.length : ℚ)
  { start := aStart
    end_ := aEnd
    signal_type := if aType = "increase" then "volume_increase"
                   else "volume_decrease"
    confidence := min (1 / 2 + avg / 10) (19 / 20)
    details := [("deviation_db", DVal.num (roundTenth avg)),
                ("baseline_lufs", DVal.num (roundTenth baseline)),
                ("direction", DVal.str aType)] }

/-- The loop state of `_find_anomalies`: the accumulated `anomalies` list and
the variables `in_anomaly`, `anomaly_start`, `anomaly_type`, `deviations`. -/
structure FAState where
  anomalies : List AudioSegmentSignal
  in_anomaly : Bool
  anomaly_start : ℚ
  anomaly_type : String
  deviations : List ℚ
deriving DecidableEq, Repr

/-- One iteration of the `for frame in frames` loop of `_find_anomalies`. -/
def faStep (thr mad b : ℚ) (st : FAState) (frame : LoudnessFrame) : FAState :=
  let deviation := frame.loudness_lufs - b
  if |deviation| > thr then
    if st.in_anomaly then { st with deviations := st.deviations ++ [|deviation|] }
    else
      { anomalies := st.anomalies
        in_anomaly := true
        anomaly_start := frame.start
        anomaly_type := if deviation > 0 then "increase" else "decrease"
        deviations := [|deviation|] }
  else if st.in_anomaly then
    { anomalies := st.anomalies ++
        (if frame.start - st.anomaly_start ≥ mad then
          [mkAnomalySignal b st.anomaly_start frame.start st.anomaly_type
            st.deviations]
         else [])
      in_anomaly := false
      anomaly_start := st.anomaly_start
      anomaly_type := st.anomaly_type
      deviations := st.deviations }
  else st

/-- The post-loop handling of a run still open at the last frame, using the
last frame's end time `lastEnd`. -/
def finishFA (mad b lastEnd : ℚ) (st : FAState) : List AudioSegmentSignal :=
  st.anomalies ++
    (if st.in_anomaly then
      if lastEnd - st.anomaly_start ≥ mad then
        [mkAnomalySignal b st.anomaly_start lastEnd st.anomaly_type
          st.deviations]
      else []
     else [])

/-- `VolumeAnalyzer._find_anomalies`. -/
def find_anomalies (thr mad : ℚ) (frames : List LoudnessFrame) (b : ℚ) :
    List AudioSegmentSignal :=
  match frames.getLast? with
  | none => []
  | some lf => finishFA mad b lf.end_
      (frames.foldl (faStep thr mad b) ⟨[], false, 0, "", []⟩)

/-- Whether a frame deviates from the baseline by more than the threshold. -/
def anomFrame (thr b : ℚ) (f : LoudnessFrame) : Bool :=
  decide (|f.loudness_lufs - b| > thr)

/-- The anomaly extraction as the spec states it (declarative counterpart of
`find_anomalies`, to be proved equal to it): walk the frames in order, an
anomaly run starts at the first frame whose absolute deviation exceeds the
threshold, takes its direction from the sign of that first deviation, ends at
the first subsequent frame back inside the threshold (or is closed at the
last frame's end time), and is emitted exactly when its duration reaches the
minimum anomaly duration. -/
def specAnomalies (thr mad b : ℚ) : List LoudnessFrame → List AudioSegmentSignal
  | [] => []
  | f :: rest =>
    if anomFrame thr b f then
      let ext := rest.takeWhile (anomFrame thr b)
      let rest' := rest.dropWhile (anomFrame thr b)
      let aEnd := match rest' with
        | g :: _ => g.start
        | [] => (ext.getLastD f).end_
      let dir := if f.loudness_lufs - b > 0 then "increase" else "decrease"
      (if aEnd - f.start ≥ mad then
        [mkAnomalySignal b f.start aEnd dir
          ((f :: ext).map fun g => |g.loudness_lufs - b|)]
       else []) ++ specAnomalies thr mad b rest'
    else specAnomalies thr mad b rest
termination_by fs => fs.length
decreasing_by
  · have h := (List.dropWhile_sublist (l := rest) (p := anomFrame thr b)).length_le
    simp only [List.length_cons]
    omega
  · simp [Nat.lt_succ_self]

/-- How a run open in state `(aStart, aType, devs)` is closed by the
remaining frames `fs` (declarative helper for the loop/spec equivalence). -/
def closeRunSpec (thr mad b aStart : ℚ) (aType : String) (devs : List ℚ)
    (fs : List LoudnessFrame) (lastEnd : ℚ) : List AudioSegmentSignal :=
  let ext := fs.takeWhile (anomFrame thr b)
  let rest' := fs.dropWhile (anomFrame thr b)
  let devs' := devs ++ ext.map fun g => |g.loudness_lufs - b|
  match rest' with
  | g :: _ =>
      (if g.start - aStart ≥ mad then [mkAnomalySignal b aStart g.start aType devs']
       else []) ++ specAnomalies thr mad b rest'
  | [] =>
      if lastEnd - aStart ≥ mad then [mkAnomalySignal b aStart lastEnd aType devs']
      else []

/-- The outcome of one `_measure_frame` ffmpeg invocation: a timeout, stderr
with no JSON object, unparsable JSON, some other exception, or a parsed JSON
dict with optional `input_i` / `input_tp` keys. -/
inductive FfmpegResult where
  | timeout : FfmpegResult
  | noJson : FfmpegResult
  | badJson : FfmpegResult
  | exc : FfmpegResult
  | json : Option ℚ → Option ℚ → FfmpegResult
deriving DecidableEq, Repr

/-- Every outcome on which `_measure_frame` takes one of its exception /
no-JSON paths. -/
def FfmpegResult.isFailure : FfmpegResult → Bool
  | .json _ _ => false
  | _ => true

/-- `VolumeAnalyzer._measure_frame`: on a parsed JSON dict, `input_i`
defaults to −24 and `input_tp` to −1; every failure path returns exactly
`(-24.0, -1.0)`. -/
def measure_frame (r : FfmpegResult) : ℚ × ℚ :=
  match r with
  | .json i tp => (i.getD (-24), tp.getD (-1))
  | _ => (-24, -1)

/-- The `while current_time < total_duration` loop of
`_measure_loudness_frames`, with explicit fuel (the loop advances by
`frame_duration` each iteration or breaks, so the fuel below always
suffices). -/
def measureFramesAux (m : ℚ → ℚ → FfmpegResult) (FD total : ℚ) :
    Nat → ℚ → List LoudnessFrame
  | 0, _ => []
  | fuel + 1, cur =>
    if cur < total then
      let fd := min FD (total - cur)
      if fd < 1 then []
      else
        let lp := measure_frame (m cur fd)
        ⟨cur, cur + fd, lp.1, lp.2⟩ ::
          measureFramesAux m FD total fuel (cur + FD)
    else []

/-- Fuel bound for the measurement loop. -/
def framesFuel (total : ℚ) : Nat := (⌈total⌉).toNat + 1

/-- `VolumeAnalyzer._measure_loudness_frames`. -/
def measure_loudness_frames (m : ℚ → ℚ → FfmpegResult) (FD total : ℚ) :
    List LoudnessFrame :=
  measureFramesAux m FD total (framesFuel total) 0

/-- The loudness values retained for the baseline: `f.loudness_lufs > -70`. -/
def retainedVals (vs : List ℚ) : List ℚ :=
  vs.filter fun q => decide (q > -70)

/-- The retained values after Python's `list.sort()`. -/
def sortedRetained (vs : List ℚ) : List ℚ :=
  (retainedVals vs).mergeSort fun a b => a ≤ b

/-- The baseline of `VolumeAnalyzer.analyze`: `values[len(values) // 2]` of
the sorted retained loudness values. -/
def baselineOf (vs : List ℚ) : ℚ :=
  (sortedRetained vs).getD ((retainedVals vs).length / 2) 0

/-- The `ffprobe`/`ffmpeg` environment one `analyze` call runs against. -/
structure AnalyzeEnv where
  fileExists : Bool
  duration : Option ℚ
  measure : ℚ → ℚ → FfmpegResult

/-- The `VolumeAnalyzer` constructor parameters with their defaults. -/
structure VolumeAnalyzer where
  frame_duration : ℚ := 5
  anomaly_threshold_db : ℚ := 3
  min_anomaly_duration : ℚ := 15
deriving DecidableEq, Repr

/-- `VolumeAnalyzer.analyze`. -/
def analyze (va : VolumeAnalyzer) (env : AnalyzeEnv) :
    List AudioSegmentSignal × Option ℚ :=
  if env.fileExists = false then ([], none)
  else
    match env.duration with
    | none => ([], none)
    | some d =>
      if d < va.frame_duration then ([], none)
      else
        let frames := measure_loudness_frames env.measure va.frame_duration d
        if frames = [] then ([], none)
        else
          let vals := frames.map (·.loudness_lufs)
          if retainedVals vals = [] then ([], none)
          else
            let baseline := baselineOf vals
            (find_anomalies va.anomaly_threshold_db va.min_anomaly_duration
              frames baseline, some baseline)

/-! ### Equivalence of the `_find_anomalies` loop with its declarative form -/

lemma getLastD_cons_end (f : LoudnessFrame) (l : List LoudnessFrame)
    (h : (f :: l) ≠ []) :
    (l.getLastD f).end_ = ((f :: l).getLast h).end_ := by
  cases l with
  | nil => rfl
  | cons g t =>
      rw [List.getLast_cons (by simp)]
      rw [List.getLastD_eq_getLast?, List.getLast?_eq_getLast (g :: t) (by simp)]
      rfl

lemma specAnomalies_cons_nonanom (thr mad b : ℚ) (f : LoudnessFrame)
    (fs : List LoudnessFrame) (hA : anomFrame thr b f = false) :
    specAnomalies thr mad b (f :: fs) = specAnomalies thr mad b fs := by
  rw [specAnomalies]
  simp [hA]

lemma closeRunSpec_start (thr mad b : ℚ) (f : LoudnessFrame)
    (fs' : List LoudnessFrame) (lastEnd : ℚ) (hA : anomFrame thr b f = true)
    (hlast : ∀ h : (f :: fs') ≠ [], lastEnd = ((f :: fs').getLast h).end_) :
    closeRunSpec thr mad b f.start
      (if f.loudness_lufs - b > 0 then "increase" else "decrease")
      [|f.loudness_lufs - b|] fs' lastEnd =
    specAnomalies thr mad b (f :: fs') := by
  rw [specAnomalies]
  rw [if_pos hA]
  unfold closeRunSpec
  cases hr : fs'.dropWhile (anomFrame thr b) with
  | cons g t =>
      simp only [hr, List.map_cons, List.singleton_append]
  | nil =>
      have hext : fs'.takeWhile (anomFrame thr b) = fs' := by
        have := List.takeWhile_append_dropWhile (anomFrame thr b) fs'
        rw [hr, List.append_nil] at this
        exact this
      simp only [hr, hext]
      rw [hlast (by simp), ← getLastD_cons_end f fs' (by simp)]
      simp [specAnomalies]

lemma closeRunSpec_cons_anom (thr mad b aStart : ℚ) (aType : String)
    (devs : List ℚ) (f : LoudnessFrame) (fs' : List LoudnessFrame)
    (lastEnd : ℚ) (hA : anomFrame thr b f = true) :
    closeRunSpec thr mad b aStart aType (devs ++ [|f.loudness_lufs - b|]) fs'
        lastEnd =
      closeRunSpec thr mad b aStart aType devs (f :: fs') lastEnd := by
  unfold closeRunSpec
  rw [List.dropWhile_cons_of_pos hA, List.takeWhile_cons_of_pos hA]
  simp only [List.map_cons, List.append_assoc, List.singleton_append]

lemma closeRunSpec_cons_nonanom (thr mad b aStart : ℚ) (aType : String)
    (devs : List ℚ) (f : LoudnessFrame) (fs' : List LoudnessFrame)
    (lastEnd : ℚ) (hA : anomFrame thr b f = false) :
    closeRunSpec thr mad b aStart aType devs (f :: fs') lastEnd =
      (if f.start - aStart ≥ mad then
        [mkAnomalySignal b aStart f.start aType devs]
       else []) ++ specAnomalies thr mad b fs' := by
  unfold closeRunSpec
  rw [List.dropWhile_cons_of_neg (by simp [hA]),
    List.takeWhile_cons_of_neg (by simp [hA])]
  simp only [List.map_nil, List.append_nil]
  rw [specAnomalies_cons_nonanom thr mad b f fs' hA]

lemma faFoldl_spec (thr mad b : ℚ) (fs : List LoudnessFrame) :
    (∀ (acc : List AudioSegmentSignal) (a : ℚ) (ty : String) (d : List ℚ)
       (lastEnd : ℚ), (∀ h : fs ≠ [], lastEnd = (fs.getLast h).end_) →
      finishFA mad b lastEnd
          (fs.foldl (faStep thr mad b) ⟨acc, false, a, ty, d⟩) =
        acc ++ specAnomalies thr mad b fs) ∧
    (∀ (acc : List AudioSegmentSignal) (aStart : ℚ) (aType : String)
       (devs : List ℚ) (lastEnd : ℚ),
      (∀ h : fs ≠ [], lastEnd = (fs.getLast h).end_) →
      finishFA mad b lastEnd
          (fs.foldl (faStep thr mad b) ⟨acc, true, aStart, aType, devs⟩) =
        acc ++ closeRunSpec thr mad b aStart aType devs fs lastEnd) := by
  induction fs with
  | nil =>
      constructor
      · intro acc a ty d lastEnd _
        simp [finishFA, specAnomalies]
      · intro acc aStart aType devs lastEnd _
        simp [finishFA, closeRunSpec]
  | cons f fs' ih =>
      have hlast' : ∀ lastEnd : ℚ,
          (∀ h : (f :: fs') ≠ [], lastEnd = ((f :: fs').getLast h).end_) →
          ∀ h : fs' ≠ [], lastEnd = (fs'.getLast h).end_ := by
        intro lastEnd hlast h
        rw [hlast (by simp), List.getLast_cons h]
      constructor
      · intro acc a ty d lastEnd hlast
        rw [List.foldl_cons]
        by_cases hA : anomFrame thr b f = true
        · have hgt : |f.loudness_lufs - b| > thr := by
            simpa [anomFrame] using hA
          have hstep : faStep thr mad b ⟨acc, false, a, ty, d⟩ f =
              ⟨acc, true, f.start,
                (if f.loudness_lufs - b > 0 then "increase" else "decrease"),
                [|f.loudness_lufs - b|]⟩ := by
            simp [faStep, hgt]
          rw [hstep, (ih.2) acc f.start _ _ lastEnd (hlast' lastEnd hlast),
            closeRunSpec_start thr mad b f fs' lastEnd hA hlast]
        · have hle : ¬ |f.loudness_lufs - b| > thr := by
            simpa [anomFrame] using hA
          have hstep : faStep thr mad b ⟨acc, false, a, ty, d⟩ f =
              ⟨acc, false, a, ty, d⟩ := by
            simp [faStep, hle]
          rw [hstep, (ih.1) acc a ty d lastEnd (hlast' lastEnd hlast)]
          rw [specAnomalies_cons_nonanom thr mad b f fs' (by simpa using hA)]
      · intro acc aStart aType devs lastEnd hlast
        rw [List.foldl_cons]
        by_cases hA : anomFrame thr b f = true
        · have hgt : |f.loudness_lufs - b| > thr := by
            simpa [anomFrame] using hA
          have hstep : faStep thr mad b ⟨acc, true, aStart, aType, devs⟩ f =
              ⟨acc, true, aStart, aType, devs ++ [|f.loudness_lufs - b|]⟩ := by
            simp [faStep, hgt]
          rw [hstep,
            (ih.2) acc aStart aType (devs ++ [|f.loudness_lufs - b|]) lastEnd
              (hlast' lastEnd hlast),
            closeRunSpec_cons_anom thr mad b aStart aType devs f fs' lastEnd hA]
        · have hle : ¬ |f.loudness_lufs - b| > thr := by
            simpa [anomFrame] using hA
          have hstep : faStep thr mad b ⟨acc, true, aStart, aType, devs⟩ f =
              ⟨acc ++ (if f.start - aStart ≥ mad then
                  [mkAnomalySignal b aStart f.start aType devs] else []),
                false, aStart, aType, devs⟩ := by
            simp [faStep, hle]
          rw [hstep, (ih.1) _ aStart aType devs lastEnd (hlast' lastEnd hlast),
            closeRunSpec_cons_nonanom thr mad b aStart aType devs f fs' lastEnd
              (by simpa [anomFrame] using hA)]
          rw [List.append_assoc]

/-- `_find_anomalies` computes exactly the declarative run extraction of the
spec. -/
lemma find_anomalies_eq_spec (thr mad b : ℚ) (frames : List LoudnessFrame) :
    find_anomalies thr mad frames b = specAnomalies thr mad b frames := by
  cases frames with
  | nil => simp [find_anomalies, specAnomalies]
  | cons f fs =>
      unfold find_anomalies
      rw [List.getLast?_eq_getLast (f :: fs) (by simp)]
      exact (faFoldl_spec thr mad b (f :: fs)).1 [] 0 "" []
        (((f :: fs).getLast (by simp)).end_) (fun h => rfl)

/-- The spec's worked example: loudness `[-24,-24,-24,-10,-10,-10,-24,-24]`
measured in 5-second windows. -/
def exampleFrames : List LoudnessFrame :=
  [⟨0, 5, -24, 0⟩, ⟨5, 10, -24, 0⟩, ⟨10, 15, -24, 0⟩,
   ⟨15, 20, -10, 0⟩, ⟨20, 25, -10, 0⟩, ⟨25, 30, -10, 0⟩,
   ⟨30, 35, -24, 0⟩, ⟨35, 40, -24, 0⟩]

/-- The single signal the detector emits on `exampleFrames` with
`thresholdDB = 3` and baseline `-24`. -/
def exampleSignal : AudioSegmentSignal :=
  { start := 15
    end_ := 30
    signal_type := "volume_increase"
    confidence := 19 / 20
    details := [("deviation_db", DVal.num 14),
                ("baseline_lufs", DVal.num (-24)),
                ("direction", DVal.str "increase")] }

lemma find_anomalies_example (mad : ℚ) (h : mad ≤ 15) :
    find_anomalies 3 mad exampleFrames (-24) = [exampleSignal] := by
  rw [find_anomalies_eq_spec]
  have h15 : ((30 : ℚ) - 15 ≥ mad) := by linarith
  norm_num [specAnomalies, anomFrame, mkAnomalySignal, roundTenth,
    exampleFrames, exampleSignal, List.takeWhile, List.dropWhile, h15]
  exact h

/-- **C5.** The anomaly walk of `_find_anomalies` is exactly the spec's run
extraction: a run starts at the first frame deviating from the baseline by
more than the threshold, takes its direction from the sign of that first
deviation, ends at the first subsequent frame back inside the threshold (or
is closed at the last frame's end), and is emitted as a
`volume_increase`/`volume_decrease` signal spanning the run exactly when its
duration reaches `min_anomaly_duration`, with
`confidence = min(0.5 + meanDeviation/10, 0.95)` and details
`deviation_db`/`baseline_lufs`/`direction`.  In particular, the frames
`[-24,-24,-24,-10,-10,-10,-24,-24]` at 5 s windows with `thresholdDB = 3`
and baseline −24 yield exactly one `volume_increase` signal covering the
three −10 frames whenever `min_anomaly_duration ≤ 15`. -/
theorem volume_anomaly_extraction :
    (∀ (thr mad b : ℚ) (frames : List LoudnessFrame),
      find_anomalies thr mad frames b = specAnomalies thr mad b frames) ∧
    (∀ mad : ℚ, mad ≤ 15 →
      find_anomalies 3 mad exampleFrames (-24) = [exampleSignal]) :=
  ⟨find_anomalies_eq_spec, find_anomalies_example⟩

/-- Witness for C5 at `min_anomaly_duration = 15` (the default). -/
theorem volume_anomaly_extraction_witness :
    find_anomalies 3 15 exampleFrames (-24) = [exampleSignal] :=
  volume_anomaly_extraction.2 15 (le_refl 15)

lemma specAnomalies_invariants (thr mad b : ℚ) (hthr : 0 ≤ thr)
    (hmad : 0 < mad) :
    ∀ (n : Nat) (frames : List LoudnessFrame), frames.length ≤ n →
      ∀ s : AudioSegmentSignal, s ∈ specAnomalies thr mad b frames →
      s.start < s.end_ ∧ mad ≤ s.end_ - s.start ∧
      (s.signal_type = "volume_increase" ∨
        s.signal_type = "volume_decrease") ∧
      1 / 2 < s.confidence ∧ s.confidence ≤ 19 / 20 ∧
      s.start ∈ frames.map LoudnessFrame.start ∧
      (s.end_ ∈ frames.map LoudnessFrame.start ∨
        s.end_ ∈ frames.map LoudnessFrame.end_) := by
  intro n
  induction n with
  | zero =>
      intro frames hlen s hs
      rw [List.length_eq_zero.mp (Nat.le_zero.mp hlen)] at hs
      simp [specAnomalies] at hs
  | succ n ih =>
      intro frames hlen s hs
      cases frames with
      | nil => simp [specAnomalies] at hs
      | cons f rest =>
          have hrestlen : rest.length ≤ n := by
            simp only [List.length_cons] at hlen
            omega
          by_cases hA : anomFrame thr b f = true
          · have hdrop : List.Sublist (rest.dropWhile (anomFrame thr b)) rest :=
              List.dropWhile_sublist (anomFrame thr b)
            have hdroplen : (rest.dropWhile (anomFrame thr b)).length ≤ n :=
              le_trans hdrop.length_le hrestlen
            rw [specAnomalies, if_pos hA] at hs
            rcases List.mem_append.mp hs with hmem | hmem
            · -- the signal emitted for this run
              set ext := rest.takeWhile (anomFrame thr b) with hext
              have hextmem : ∀ g ∈ f :: ext, anomFrame thr b g = true := by
                intro g hg
                rcases List.mem_cons.mp hg with hg | hg
                · rw [hg]; exact hA
                · exact List.mem_takeWhile_imp hg
              have hextsub : List.Sublist ext rest :=
                List.takeWhile_sublist (anomFrame thr b)
              -- the emitted signal and its guard
              split at hmem
              swap
              · simp at hmem
              · rename_i hguard
                rw [List.mem_singleton] at hmem
                subst hmem
                -- properties of mkAnomalySignal
                set aEnd := (match rest.dropWhile (anomFrame thr b) with
                  | g :: _ => g.start
                  | [] => (ext.getLastD f).end_) with haEnd
                set devs := (f :: ext).map
                  (fun g => |g.loudness_lufs - b|) with hdevs
                have hdevspos : ∀ y ∈ devs, 0 < y := by
                  intro y hy
                  rw [hdevs] at hy
                  rcases List.mem_map.mp hy with ⟨g, hg, hgy⟩
                  have := hextmem g hg
                  simp only [anomFrame, decide_eq_true_eq] at this
                  rw [← hgy]
                  exact lt_of_le_of_lt hthr this
                have hdevsne : devs ≠ [] := by simp [hdevs]
                have hsumpos : 0 < devs.sum := List.sum_pos devs hdevspos hdevsne
                have hlenpos : 0 < (devs.length : ℚ) := by
                  have : 0 < devs.length := List.length_pos.mpr hdevsne
                  exact_mod_cast this
                have havgpos : 0 < devs.sum / (devs.length : ℚ) :=
                  div_pos hsumpos hlenpos
                refine ⟨by simp [mkAnomalySignal]; linarith,
                  by simp [mkAnomalySignal]; linarith, ?_, ?_, ?_, ?_, ?_⟩
                · simp only [mkAnomalySignal]
                  split <;> simp
                · simp only [mkAnomalySignal]
                  exact lt_min (by linarith) (by norm_num)
                · simp only [mkAnomalySignal]
                  exact min_le_right _ _
                · simp [mkAnomalySignal]
                · -- the end time is a frame boundary
                  simp only [mkAnomalySignal]
                  rw [haEnd]
                  cases hr : rest.dropWhile (anomFrame thr b) with
                  | cons g t =>
                      left
                      have hg : g ∈ rest := hdrop.subset (hr ▸ List.mem_cons_self g t)
                      simp only [List.map_cons]
                      exact List.mem_cons_of_mem _ (List.mem_map_of_mem _ hg)
                  | nil =>
                      right
                      have hmem2 : ext.getLastD f ∈ f :: ext := by
                        cases hext2 : ext with
                        | nil => simp
                        | cons e es =>
                            rw [List.getLastD_eq_getLast?,
                              List.getLast?_eq_getLast (e :: es) (by simp)]
                            exact List.mem_cons_of_mem _
                              (Option.getD_some ▸ List.getLast_mem (by simp))
                      rcases List.mem_cons.mp hmem2 with hmm | hmm
                      · rw [hmm]
                        simp
                      · have : ext.getLastD f ∈ rest := hextsub.subset hmm
                        simp only [List.map_cons]
                        exact List.mem_cons_of_mem _ (List.mem_map_of_mem _ this)
            · -- a signal from the rest of the walk
              have := ih (rest.dropWhile (anomFrame thr b)) hdroplen s hmem
              refine ⟨this.1, this.2.1, this.2.2.1, this.2.2.2.1,
                this.2.2.2.2.1, ?_, ?_⟩
              · have hsub := (hdrop.map LoudnessFrame.start).subset
                  this.2.2.2.2.2.1
                simp only [List.map_cons]
                exact List.mem_cons_of_mem _ hsub
              · rcases this.2.2.2.2.2.2 with hend | hend
                · left
                  simp only [List.map_cons]
                  exact List.mem_cons_of_mem _
                    ((hdrop.map LoudnessFrame.start).subset hend)
                · right
                  simp only [List.map_cons]
                  exact List.mem_cons_of_mem _
                    ((hdrop.map LoudnessFrame.end_).subset hend)
          · rw [specAnomalies_cons_nonanom thr mad b f rest
              (by simpa using hA)] at hs
            have := ih rest hrestlen s hs
            refine ⟨this.1, this.2.1, this.2.2.1, this.2.2.2.1,
              this.2.2.2.2.1, ?_, ?_⟩
            · simp only [List.map_cons]
              exact List.mem_cons_of_mem _ this.2.2.2.2.2.1
            · rcases this.2.2.2.2.2.2 with hend | hend
              · left
                simp only [List.map_cons]
                exact List.mem_cons_of_mem _ hend
              · right
                simp only [List.map_cons]
                exact List.mem_cons_of_mem _ hend

/-- **C9.** Every signal emitted by `_find_anomalies` (for a non-negative
threshold and positive minimum duration, as the constructor defaults are)
satisfies: `start < end` with `end − start ≥ min_anomaly_duration`, its type
is `volume_increase` or `volume_decrease` and nothing else, its confidence
lies in `(0.5, 0.95]`, and its start and end coincide with boundaries of the
input frames (a frame start, or for a run closed at the end of audio the
last frame's end). -/
theorem emitted_signal_invariants (thr mad b : ℚ) (hthr : 0 ≤ thr)
    (hmad : 0 < mad) (frames : List LoudnessFrame) (s : AudioSegmentSignal)
    (hs : s ∈ find_anomalies thr mad frames b) :
    s.start < s.end_ ∧ mad ≤ s.end_ - s.start ∧
    (s.signal_type = "volume_increase" ∨ s.signal_type = "volume_decrease") ∧
    1 / 2 < s.confidence ∧ s.confidence ≤ 19 / 20 ∧
    s.start ∈ frames.map LoudnessFrame.start ∧
    (s.end_ ∈ frames.map LoudnessFrame.start ∨
      s.end_ ∈ frames.map LoudnessFrame.end_) := by
  rw [find_anomalies_eq_spec] at hs
  exact specAnomalies_invariants thr mad b hthr hmad frames.length frames
    le_rfl s hs

/-- Witness for C9: the concrete example signal. -/
theorem emitted_signal_invariants_witness :
    exampleSignal.start < exampleSignal.end_ ∧
    (15 : ℚ) ≤ exampleSignal.end_ - exampleSignal.start ∧
    (exampleSignal.signal_type = "volume_increase" ∨
      exampleSignal.signal_type = "volume_decrease") ∧
    1 / 2 < exampleSignal.confidence ∧ exampleSignal.confidence ≤ 19 / 20 ∧
    exampleSignal.start ∈ exampleFrames.map LoudnessFrame.start ∧
    (exampleSignal.end_ ∈ exampleFrames.map LoudnessFrame.start ∨
      exampleSignal.end_ ∈ exampleFrames.map LoudnessFrame.end_) :=
  emitted_signal_invariants 3 15 (-24) (by norm_num) (by norm_num)
    exampleFrames exampleSignal
    (by rw [find_anomalies_example 15 (le_refl 15)]
        exact List.mem_singleton_self _)

/-- **C7.** `VolumeAnalyzer.analyze` degrades to the "no signal" outcome
`([], None)` — never an error — on every degenerate input: missing audio
file, missing or too-short duration (shorter than one frame), an empty frame
list, or frames that are all at or below the −70 LUFS silence floor.  (The
model is total by construction; the four branches below are the code's
explicit early returns.) -/
theorem analyze_degrades_to_no_signal (va : VolumeAnalyzer) (env : AnalyzeEnv) :
    (env.fileExists = false → analyze va env = ([], none)) ∧
    (env.duration = none → analyze va env = ([], none)) ∧
    (∀ d : ℚ, env.duration = some d → d < va.frame_duration →
      analyze va env = ([], none)) ∧
    (∀ d : ℚ, env.duration = some d →
      measure_loudness_frames env.measure va.frame_duration d = [] →
      analyze va env = ([], none)) ∧
    (∀ d : ℚ, env.duration = some d →
      (∀ f ∈ measure_loudness_frames env.measure va.frame_duration d,
        f.loudness_lufs ≤ -70) →
      analyze va env = ([], none)) := by
  refine ⟨?_, ?_, ?_, ?_, ?_⟩
  · intro hf
    simp [analyze, hf]
  · intro hd
    by_cases hfe : env.fileExists = false
    · simp [analyze, hfe]
    · simp [analyze, hfe, hd]
  · intro d hd hlt
    by_cases hfe : env.fileExists = false
    · simp [analyze, hfe]
    · simp [analyze, hfe, hd, hlt]
  · intro d hd hfr
    by_cases hfe : env.fileExists = false
    · simp [analyze, hfe]
    · by_cases hlt : d < va.frame_duration
      · simp [analyze, hfe, hd, hlt]
      · simp [analyze, hfe, hd, hlt, hfr]
  · intro d hd hall
    by_cases hfe : env.fileExists = false
    · simp [analyze, hfe]
    · by_cases hlt : d < va.frame_duration
      · simp [analyze, hfe, hd, hlt]
      · by_cases hfr :
          measure_loudness_frames env.measure va.frame_duration d = []
        · simp [analyze, hfe, hd, hlt, hfr]
        · have hret : retainedVals
              ((measure_loudness_frames env.measure va.frame_duration d).map
                (·.loudness_lufs)) = [] := by
            rw [retainedVals, List.filter_eq_nil_iff]
            intro q hq
            rcases List.mem_map.mp hq with ⟨f, hf, hfq⟩
            have hle := hall f hf
            simp only [decide_eq_true_eq, not_lt]
            rw [← hfq]
            linarith
          simp [analyze, hfe, hd, hlt, hfr, hret]

/-- Witness for C7: concrete environments exercising each degenerate case
(missing file; `ffprobe` failure; 3 s audio against 5 s frames; a frame loop
that breaks immediately because `frame_duration = 1/2 < 1`; and a single
all-silent −80 LUFS frame). -/
theorem analyze_degrades_to_no_signal_witness :
    (analyze {} ⟨false, some 60, fun _ _ => FfmpegResult.timeout⟩ = ([], none)) ∧
    (analyze {} ⟨true, none, fun _ _ => FfmpegResult.timeout⟩ = ([], none)) ∧
    (analyze {} ⟨true, some 3, fun _ _ => FfmpegResult.timeout⟩ = ([], none)) ∧
    (analyze ⟨1/2, 3, 15⟩ ⟨true, some 1, fun _ _ => FfmpegResult.timeout⟩ =
      ([], none)) ∧
    (analyze {} ⟨true, some 5, fun _ _ => FfmpegResult.json (some (-80)) none⟩ =
      ([], none)) := by
  refine ⟨(analyze_degrades_to_no_signal _ _).1 rfl,
    (analyze_degrades_to_no_signal _ _).2.1 rfl,
    (analyze_degrades_to_no_signal _ _).2.2.1 3 rfl (by norm_num),
    (analyze_degrades_to_no_signal _ _).2.2.2.1 1 rfl ?_,
    (analyze_degrades_to_no_signal _ _).2.2.2.2 5 rfl ?_⟩
  · show measureFramesAux _ (1/2 : ℚ) 1 (framesFuel 1) 0 = []
    rw [framesFuel]
    norm_num [measureFramesAux]
  · intro f hf
    have hfr : measureFramesAux (fun _ _ => FfmpegResult.json (some (-80)) none)
        (5 : ℚ) 5 (framesFuel 5) 0 = [⟨0, 5, -80, -1⟩] := by
      rw [framesFuel]
      norm_num [measureFramesAux, measure_frame]
    rw [show measure_loudness_frames (fun _ _ => FfmpegResult.json (some (-80))
        none) (5 : ℚ) 5 = measureFramesAux _ (5 : ℚ) 5 (framesFuel 5) 0
      from rfl, hfr] at hf
    rw [List.mem_singleton] at hf
    rw [hf]
    norm_num

lemma measureFramesAux_shape (m m' : ℚ → ℚ → FfmpegResult) (FD total : ℚ) :
    ∀ (fuel : Nat) (cur : ℚ),
      (measureFramesAux m FD total fuel cur).map (fun f => (f.start, f.end_)) =
      (measureFramesAux m' FD total fuel cur).map
        (fun f => (f.start, f.end_)) := by
  intro fuel
  induction fuel with
  | zero => intro cur; rfl
  | succ fuel ih =>
      intro cur
      simp only [measureFramesAux]
      by_cases hc : cur < total
      · by_cases hfd : FD ⊓ (total - cur) < 1
        · simp [hc, hfd]
        · simp [hc, hfd, ih (cur + FD)]
      · simp [hc]

lemma measureFramesAux_failure (m : ℚ → ℚ → FfmpegResult) (FD total : ℚ) :
    ∀ (fuel : Nat) (cur : ℚ) (f : LoudnessFrame),
      f ∈ measureFramesAux m FD total fuel cur →
      (m f.start (f.end_ - f.start)).isFailure = true →
      f.loudness_lufs = -24 ∧ f.peak_dbfs = -1 := by
  intro fuel
  induction fuel with
  | zero => intro cur f hf; simp [measureFramesAux] at hf
  | succ fuel ih =>
      intro cur f hf hfail
      simp only [measureFramesAux] at hf
      by_cases hc : cur < total
      · by_cases hfd : FD ⊓ (total - cur) < 1
        · simp [hc, hfd] at hf
        · rw [if_pos hc, if_neg hfd] at hf
          rcases List.mem_cons.mp hf with hf | hf
          · subst hf
            simp only [add_sub_cancel_left] at hfail
            cases hm : m cur (FD ⊓ (total - cur)) with
            | json i tp =>
                rw [hm] at hfail
                simp [FfmpegResult.isFailure] at hfail
            | timeout => simp [hm, measure_frame]
            | noJson => simp [hm, measure_frame]
            | badJson => simp [hm, measure_frame]
            | exc => simp [hm, measure_frame]
          · exact ih (cur + FD) f hf hfail
      · simp [hc] at hf

/-- **C10.** The per-frame loudness measurement is total and substitutes
defaults: every failing `_measure_frame` outcome (timeout, no JSON in
stderr, unparsable JSON, any other exception) yields exactly `(-24.0, -1.0)`;
the frame grid produced by `_measure_loudness_frames` (each frame's start and
end) is identical no matter what the measurement oracle returns — failed
frames are never dropped — and every frame whose measurement failed enters
the series with loudness −24.0 LUFS and peak −1.0, participating in baseline
and anomaly computation like any other frame. -/
theorem measurement_total_with_defaults :
    (∀ r : FfmpegResult, r.isFailure = true → measure_frame r = (-24, -1)) ∧
    (∀ (m m' : ℚ → ℚ → FfmpegResult) (FD total : ℚ),
      (measure_loudness_frames m FD total).map (fun f => (f.start, f.end_)) =
      (measure_loudness_frames m' FD total).map
        (fun f => (f.start, f.end_))) ∧
    (∀ (m : ℚ → ℚ → FfmpegResult) (FD total : ℚ) (f : LoudnessFrame),
      f ∈ measure_loudness_frames m FD total →
      (m f.start (f.end_ - f.start)).isFailure = true →
      f.loudness_lufs = -24 ∧ f.peak_dbfs = -1) := by
  refine ⟨?_, ?_, ?_⟩
  · intro r hr
    cases r with
    | json i tp => simp [FfmpegResult.isFailure] at hr
    | timeout => rfl
    | noJson => rfl
    | badJson => rfl
    | exc => rfl
  · intro m m' FD total
    exact measureFramesAux_shape m m' FD total (framesFuel total) 0
  · intro m FD total f hf hfail
    exact measureFramesAux_failure m FD total (framesFuel total) 0 f hf hfail

/-- Witness for C10: a permanently timing-out oracle over 5 s of audio
produces the single frame `[0, 5)` with the default loudness −24 and peak
−1. -/
theorem measurement_total_with_defaults_witness :
    measure_frame FfmpegResult.timeout = (-24, -1) ∧
    ((⟨0, 5, -24, -1⟩ : LoudnessFrame).loudness_lufs = -24 ∧
      (⟨0, 5, -24, -1⟩ : LoudnessFrame).peak_dbfs = -1) := by
  constructor
  · exact measurement_total_with_defaults.1 FfmpegResult.timeout rfl
  · refine measurement_total_with_defaults.2.2
      (fun _ _ => FfmpegResult.timeout) 5 5 ⟨0, 5, -24, -1⟩ ?_ rfl
    show (⟨0, 5, -24, -1⟩ : LoudnessFrame) ∈
      measureFramesAux _ (5 : ℚ) 5 (framesFuel 5) 0
    rw [framesFuel]
    norm_num [measureFramesAux, measure_frame]

/-! ### Baseline: median of the retained loudness values, and robustness -/

lemma sortedRetained_sorted (vs : List ℚ) :
    List.Sorted (· ≤ ·) (sortedRetained vs) :=
  List.sorted_mergeSort' (retainedVals vs)

lemma sortedRetained_perm (vs : List ℚ) :
    List.Perm (sortedRetained vs) (retainedVals vs) :=
  List.mergeSort_perm (retainedVals vs) _

lemma length_sortedRetained (vs : List ℚ) :
    (sortedRetained vs).length = (retainedVals vs).length :=
  (sortedRetained_perm vs).length_eq

/-- Removing one occurrence of an element moves every position of a list by
at most one: the element at index `i` of `l.erase v` is the element at index
`i` or `i + 1` of `l`. -/
lemma getD_erase (l : List ℚ) (v : ℚ) (i : Nat) (hi : i + 1 < l.length) :
    (l.erase v).getD i 0 = l.getD i 0 ∨
      (l.erase v).getD i 0 = l.getD (i + 1) 0 := by
  induction l generalizing i with
  | nil => simp at hi
  | cons a t ih =>
      rw [List.erase_cons]
      by_cases hav : a = v
      · right
        rw [if_pos (by simp [hav])]
        rfl
      · rw [if_neg (by simp [hav])]
        cases i with
        | zero => left; rfl
        | succ i =>
            have hi' : i + 1 < t.length := by
              simp only [List.length_cons] at hi
              omega
            rcases ih i hi' with h | h
            · left
              simpa using h
            · right
              simpa using h

/-- The median characterization of `baselineOf`: the baseline is one of the
retained values, at least half of the retained values are `≤` it, and at
least half are `≥` it. -/
lemma baselineOf_median (vs : List ℚ) (hne : retainedVals vs ≠ []) :
    baselineOf vs ∈ retainedVals vs ∧
    (retainedVals vs).length ≤
      2 * (retainedVals vs).countP (fun y => decide (y ≤ baselineOf vs)) ∧
    (retainedVals vs).length ≤
      2 * (retainedVals vs).countP (fun y => decide (baselineOf vs ≤ y)) := by
  set R := retainedVals vs with hR
  set s := sortedRetained vs with hs
  have hlen : s.length = R.length := length_sortedRetained vs
  have hperm : List.Perm s R := sortedRetained_perm vs
  have hsorted : List.Sorted (· ≤ ·) s := sortedRetained_sorted vs
  set n := R.length with hn
  have hnpos : 0 < n := List.length_pos.mpr hne
  set m := n / 2 with hm
  have hmlt : m < s.length := by rw [hlen]; omega
  have hb : baselineOf vs = s[m] := by
    rw [baselineOf, ← hR, ← hs, ← hn, ← hm]
    exact List.getD_eq_getElem s 0 hmlt
  refine ⟨?_, ?_, ?_⟩
  · rw [hb]
    exact hperm.subset (List.getElem_mem hmlt)
  · -- indices 0..m are all ≤ the baseline
    have hcount : (s.take (m + 1)).countP (fun y => decide (y ≤ baselineOf vs))
        = (s.take (m + 1)).length := by
      rw [List.countP_eq_length]
      intro a ha
      rcases List.mem_iff_getElem.mp ha with ⟨i, hilt, hia⟩
      have hitake : i < m + 1 := by
        have := hilt
        rw [List.length_take] at this
        omega
      have hil : i < s.length := by omega
      have : (s.take (m + 1))[i] = s[i] := List.getElem_take s
      rw [this] at hia
      have hle : s[i] ≤ s[m] :=
        hsorted.rel_get_of_le (by exact Nat.lt_succ_iff.mp hitake :
          (⟨i, hil⟩ : Fin s.length) ≤ ⟨m, hmlt⟩)
      rw [← hia, hb]
      simpa using hle
    have htakelen : (s.take (m + 1)).length = m + 1 := by
      rw [List.length_take]
      have : m + 1 ≤ s.length := by omega
      omega
    have hsplit : s.countP (fun y => decide (y ≤ baselineOf vs)) =
        (s.take (m + 1)).countP (fun y => decide (y ≤ baselineOf vs)) +
        (s.drop (m + 1)).countP (fun y => decide (y ≤ baselineOf vs)) := by
      rw [← List.countP_append, List.take_append_drop]
    have hRcount : R.countP (fun y => decide (y ≤ baselineOf vs)) =
        s.countP (fun y => decide (y ≤ baselineOf vs)) :=
      (hperm.countP_eq _).symm
    rw [hRcount, hsplit, hcount, htakelen]
    omega
  · -- indices m.. are all ≥ the baseline
    have hcount : (s.drop m).countP (fun y => decide (baselineOf vs ≤ y))
        = (s.drop m).length := by
      rw [List.countP_eq_length]
      intro a ha
      rcases List.mem_iff_getElem.mp ha with ⟨i, hilt, hia⟩
      have hmi : m + i < s.length := by
        have := hilt
        rw [List.length_drop] at this
        omega
      have : (s.drop m)[i] = s[m + i] := List.getElem_drop s
      rw [this] at hia
      have hle : s[m] ≤ s[m + i] :=
        hsorted.rel_get_of_le (by simp : (⟨m, hmlt⟩ : Fin s.length) ≤ ⟨m + i, hmi⟩)
      rw [← hia, hb]
      simpa using hle
    have hdroplen : (s.drop m).length = n - m := by
      rw [List.length_drop, hlen]
    have hsplit : s.countP (fun y => decide (baselineOf vs ≤ y)) =
        (s.take m).countP (fun y => decide (baselineOf vs ≤ y)) +
        (s.drop m).countP (fun y => decide (baselineOf vs ≤ y)) := by
      rw [← List.countP_append, List.take_append_drop]
    have hRcount : R.countP (fun y => decide (baselineOf vs ≤ y)) =
        s.countP (fun y => decide (baselineOf vs ≤ y)) :=
      (hperm.countP_eq _).symm
    rw [hRcount, hsplit, hcount, hdroplen]
    omega

lemma retainedVals_mid_pos (l r : List ℚ) (c : ℚ) (hc : (-70 : ℚ) < c) :
    retainedVals (l ++ c :: r) = retainedVals l ++ c :: retainedVals r := by
  simp [retainedVals, List.filter_append, List.filter_cons, hc]

lemma retainedVals_mid_neg (l r : List ℚ) (c : ℚ) (hc : ¬ (-70 : ℚ) < c) :
    retainedVals (l ++ c :: r) = retainedVals l ++ retainedVals r := by
  simp [retainedVals, List.filter_append, List.filter_cons, hc]

lemma sorted_append_singleton (s : List ℚ) (x : ℚ)
    (hs : List.Sorted (· ≤ ·) s) (hx : ∀ a ∈ s, a ≤ x) :
    List.Sorted (· ≤ ·) (s ++ [x]) := by
  rw [List.Sorted, List.pairwise_append]
  refine ⟨hs, List.sorted_singleton x, ?_⟩
  intro a ha b hb
  rw [List.mem_singleton] at hb
  rw [hb]
  exact hx a ha

/-- Robustness of the baseline: replacing one frame's loudness `v` by an
arbitrarily extreme outlier `x` (below the silence floor, or at least as
large as every retained value) moves the baseline by at most one rank
position in the sorted retained values of the original series. -/
lemma baselineOf_robust (l r : List ℚ) (v x : ℚ)
    (hn3 : 3 ≤ (retainedVals (l ++ v :: r)).length)
    (hout : x ≤ -70 ∨ ∀ y ∈ retainedVals (l ++ v :: r), y ≤ x) :
    ∃ j : Nat,
      (j + 1 = (retainedVals (l ++ v :: r)).length / 2 ∨
       j = (retainedVals (l ++ v :: r)).length / 2 ∨
       j = (retainedVals (l ++ v :: r)).length / 2 + 1) ∧
      baselineOf (l ++ x :: r) = (sortedRetained (l ++ v :: r)).getD j 0 := by
  have hsortedOld : List.Sorted (· ≤ ·) (sortedRetained (l ++ v :: r)) :=
    sortedRetained_sorted _
  have hpermOld : List.Perm (sortedRetained (l ++ v :: r))
      (retainedVals (l ++ v :: r)) := sortedRetained_perm _
  have hlenOld : (sortedRetained (l ++ v :: r)).length =
      (retainedVals (l ++ v :: r)).length := hpermOld.length_eq
  set n := (retainedVals (l ++ v :: r)).length with hn
  by_cases hx : (-70 : ℚ) < x
  · -- the outlier is retained, hence x dominates every old retained value
    have hall : ∀ y ∈ retainedVals (l ++ v :: r), y ≤ x := by
      rcases hout with h | h
      · exact absurd h (not_le.mpr hx)
      · exact h
    have hallsOld : ∀ a ∈ sortedRetained (l ++ v :: r), a ≤ x :=
      fun a ha => hall a (hpermOld.subset ha)
    have hRnew : retainedVals (l ++ x :: r) =
        retainedVals l ++ x :: retainedVals r := retainedVals_mid_pos l r x hx
    by_cases hv : (-70 : ℚ) < v
    · -- replaced value was retained: new sorted list is erase v, then x last
      have hRold : retainedVals (l ++ v :: r) =
          retainedVals l ++ v :: retainedVals r := retainedVals_mid_pos l r v hv
      have hvRold : v ∈ retainedVals (l ++ v :: r) := by
        rw [hRold]
        exact List.mem_append_right _ (List.mem_cons_self v _)
      have hvsOld : v ∈ sortedRetained (l ++ v :: r) :=
        hpermOld.mem_iff.mpr hvRold
      have heraseperm : List.Perm ((sortedRetained (l ++ v :: r)).erase v)
          (retainedVals l ++ retainedVals r) := by
        refine (hpermOld.erase v).trans ?_
        have hmid : List.Perm (retainedVals l ++ v :: retainedVals r)
            (v :: (retainedVals l ++ retainedVals r)) := List.perm_middle
        rw [hRold]
        refine (hmid.erase v).trans ?_
        rw [List.erase_cons_head]
      have hsNew : sortedRetained (l ++ x :: r) =
          (sortedRetained (l ++ v :: r)).erase v ++ [x] := by
        refine List.eq_of_perm_of_sorted ?_ (sortedRetained_sorted _) ?_
        · refine (sortedRetained_perm _).trans ?_
          rw [hRnew]
          refine List.perm_middle.trans ?_
          refine (heraseperm.symm.cons x).trans ?_
          exact (List.perm_append_singleton x _).symm
        · refine sorted_append_singleton _ x
            (hsortedOld.sublist (List.erase_sublist v _)) ?_
          intro a ha
          exact hallsOld a ((List.erase_sublist v _).subset ha)
      have hnNew : (retainedVals (l ++ x :: r)).length = n := by
        rw [hRnew, hn, hRold]
        simp
      have hlenerase : ((sortedRetained (l ++ v :: r)).erase v).length = n - 1 := by
        rw [List.length_erase_of_mem hvsOld, hlenOld]
      have hmlt : n / 2 < ((sortedRetained (l ++ v :: r)).erase v).length := by
        rw [hlenerase]
        omega
      have hbd : baselineOf (l ++ x :: r) =
          ((sortedRetained (l ++ v :: r)).erase v).getD (n / 2) 0 := by
        rw [baselineOf, hsNew, hnNew]
        exact List.getD_append _ _ 0 (n / 2) hmlt
      have hsplit := getD_erase (sortedRetained (l ++ v :: r)) v (n / 2)
        (by rw [hlenOld]; omega)
      rcases hsplit with h | h
      · exact ⟨n / 2, Or.inr (Or.inl rfl), by rw [hbd, h]⟩
      · exact ⟨n / 2 + 1, Or.inr (Or.inr rfl), by rw [hbd, h]⟩
    · -- replaced value was not retained: new sorted list is old plus x last
      have hRold : retainedVals (l ++ v :: r) =
          retainedVals l ++ retainedVals r := retainedVals_mid_neg l r v hv
      have hsNew : sortedRetained (l ++ x :: r) =
          sortedRetained (l ++ v :: r) ++ [x] := by
        refine List.eq_of_perm_of_sorted ?_ (sortedRetained_sorted _) ?_
        · refine (sortedRetained_perm _).trans ?_
          rw [hRnew]
          refine List.perm_middle.trans ?_
          rw [← hRold]
          refine ((hpermOld.symm).cons x).trans ?_
          exact (List.perm_append_singleton x _).symm
        · exact sorted_append_singleton _ x hsortedOld hallsOld
      have hnNew : (retainedVals (l ++ x :: r)).length = n + 1 := by
        rw [hRnew, hn, hRold]
        simp
        omega
      have hmlt : (n + 1) / 2 < (sortedRetained (l ++ v :: r)).length := by
        rw [hlenOld]
        omega
      refine ⟨(n + 1) / 2, by omega, ?_⟩
      rw [baselineOf, hsNew, hnNew]
      exact List.getD_append _ _ 0 ((n + 1) / 2) hmlt
  · -- the outlier falls below the silence floor and is dropped
    have hRnew : retainedVals (l ++ x :: r) =
        retainedVals l ++ retainedVals r := retainedVals_mid_neg l r x hx
    by_cases hv : (-70 : ℚ) < v
    · -- replaced value was retained: new sorted list is erase v
      have hRold : retainedVals (l ++ v :: r) =
          retainedVals l ++ v :: retainedVals r := retainedVals_mid_pos l r v hv
      have hvRold : v ∈ retainedVals (l ++ v :: r) := by
        rw [hRold]
        exact List.mem_append_right _ (List.mem_cons_self v _)
      have hvsOld : v ∈ sortedRetained (l ++ v :: r) :=
        hpermOld.mem_iff.mpr hvRold
      have heraseperm : List.Perm ((sortedRetained (l ++ v :: r)).erase v)
          (retainedVals l ++ retainedVals r) := by
        refine (hpermOld.erase v).trans ?_
        have hmid : List.Perm (retainedVals l ++ v :: retainedVals r)
            (v :: (retainedVals l ++ retainedVals r)) := List.perm_middle
        rw [hRold]
        refine (hmid.erase v).trans ?_
        rw [List.erase_cons_head]
      have hsNew : sortedRetained (l ++ x :: r) =
          (sortedRetained (l ++ v :: r)).erase v := by
        refine List.eq_of_perm_of_sorted ?_ (sortedRetained_sorted _)
          (hsortedOld.sublist (List.erase_sublist v _))
        refine (sortedRetained_perm _).trans ?_
        rw [hRnew]
        exact heraseperm.symm
      have hnNew : (retainedVals (l ++ x :: r)).length = n - 1 := by
        rw [hRnew, hn, hRold]
        simp
      have hbd : baselineOf (l ++ x :: r) =
          ((sortedRetained (l ++ v :: r)).erase v).getD ((n - 1) / 2) 0 := by
        rw [baselineOf, hsNew, hnNew]
      have hsplit := getD_erase (sortedRetained (l ++ v :: r)) v ((n - 1) / 2)
        (by rw [hlenOld]; omega)
      rcases hsplit with h | h
      · refine ⟨(n - 1) / 2, by omega, by rw [hbd, h]⟩
      · refine ⟨(n - 1) / 2 + 1, by omega, by rw [hbd, h]⟩
    · -- neither value retained: the retained series is unchanged
      have hRold : retainedVals (l ++ v :: r) =
          retainedVals l ++ retainedVals r := retainedVals_mid_neg l r v hv
      have hsame : retainedVals (l ++ x :: r) = retainedVals (l ++ v :: r) := by
        rw [hRnew, hRold]
      have hsNew : sortedRetained (l ++ x :: r) =
          sortedRetained (l ++ v :: r) := by
        unfold sortedRetained
        rw [hsame]
      refine ⟨n / 2, Or.inr (Or.inl rfl), ?_⟩
      rw [baselineOf, hsNew, hsame]

/-- **C6.** The baseline of `analyze` is the median of the loudness values
after excluding exactly the values ≤ −70 LUFS: it is itself one of the
retained values, at least half of them are ≤ it and at least half are ≥ it
(the source takes `values[len // 2]` of the sorted retained list, the upper
median for even counts).  It is robust: replacing any one frame's loudness
by an arbitrarily extreme outlier — below the silence floor, or at least as
large as every retained value — moves the baseline by at most one rank
position in the sorted retained values (for at least three retained
frames). -/
theorem baseline_median_and_robust :
    (∀ vs : List ℚ, retainedVals vs ≠ [] →
      baselineOf vs ∈ retainedVals vs ∧
      (retainedVals vs).length ≤
        2 * (retainedVals vs).countP (fun y => decide (y ≤ baselineOf vs)) ∧
      (retainedVals vs).length ≤
        2 * (retainedVals vs).countP (fun y => decide (baselineOf vs ≤ y))) ∧
    (∀ (l r : List ℚ) (v x : ℚ),
      3 ≤ (retainedVals (l ++ v :: r)).length →
      (x ≤ -70 ∨ ∀ y ∈ retainedVals (l ++ v :: r), y ≤ x) →
      ∃ j : Nat,
        (j + 1 = (retainedVals (l ++ v :: r)).length / 2 ∨
         j = (retainedVals (l ++ v :: r)).length / 2 ∨
         j = (retainedVals (l ++ v :: r)).length / 2 + 1) ∧
        baselineOf (l ++ x :: r) = (sortedRetained (l ++ v :: r)).getD j 0) :=
  ⟨baselineOf_median, baselineOf_robust⟩

/-- Witness for C6: the median characterization on `[-24, -10, -24]`, and
rank robustness when one `-24` in `[-24, -24, -24, -10]` is replaced by the
extreme outlier `100`. -/
theorem baseline_median_and_robust_witness :
    (baselineOf [-24, -10, -24] ∈ retainedVals [-24, -10, -24] ∧
      (retainedVals [-24, -10, -24]).length ≤
        2 * (retainedVals [-24, -10, -24]).countP
          (fun y => decide (y ≤ baselineOf [-24, -10, -24])) ∧
      (retainedVals [-24, -10, -24]).length ≤
        2 * (retainedVals [-24, -10, -24]).countP
          (fun y => decide (baselineOf [-24, -10, -24] ≤ y))) ∧
    (∃ j : Nat,
      (j + 1 = (retainedVals ([-24, -24] ++ (-24 : ℚ) :: [-10])).length / 2 ∨
       j = (retainedVals ([-24, -24] ++ (-24 : ℚ) :: [-10])).length / 2 ∨
       j = (retainedVals ([-24, -24] ++ (-24 : ℚ) :: [-10])).length / 2 + 1) ∧
      baselineOf ([-24, -24] ++ (100 : ℚ) :: [-10]) =
        (sortedRetained ([-24, -24] ++ (-24 : ℚ) :: [-10])).getD j 0) :=
  ⟨baseline_median_and_robust.1 [-24, -10, -24]
     (by norm_num [retainedVals]; exact List.cons_ne_nil _ _),
   baseline_median_and_robust.2 [-24, -24] [-10] (-24) 100
     (by norm_num [retainedVals])
     (Or.inr (by
       intro y hy
       norm_num [retainedVals] at hy
       rcases hy with h | h <;> norm_num [h]))⟩

/-- **C2, failing-input evaluation.** Job A acquires at `t = 0`; at
`t = 2000` the lease is stale, so job B's `acquire` force-clears it and B
becomes the recorded holder; when job A then completes and calls `release`,
the source clears the lease unconditionally — job B's recorded identity is
erased and B's lock is freed, because `release` performs no ownership check. -/
theorem release_after_stale_clear_erases_new_holder :
    (let s1 := (acquire initQState "pod" "epA" 0 ExtRead.fail).2
     let s2 := (acquire s1 "pod" "epB" 2000 ExtRead.fail).2
     s2.currentEpisode = some ("pod", "epB") ∧ s2.tokenHeld = true ∧
       (release s2).currentEpisode = none ∧ (release s2).tokenHeld = false) := by
  norm_num [acquire, forceClearStale, isStale, syncWithStatusService, release,
    initQState, MAX_JOB_DURATION]

/-- **C3.** A lease more than `MAX_JOB_DURATION` in the past is cleared by
the next `acquire`, `is_busy`, or `get_current` call even though `release`
was never called (for `acquire`, the stale lease is replaced by the fresh
acquirer's); a lease within the window survives those calls unchanged,
provided the StatusService read does not report the slot free (sync-based
clearing is a separate mechanism from staleness). -/
theorem stale_lease_cleared_fresh_lease_kept
    (s : QState) (j : Job) (t now : ℚ) (slug eid : String) (e e' : ExtRead)
    (hj : s.currentEpisode = some j) (ht : s.acquiredAt = some t) :
    (now - t > MAX_JOB_DURATION →
      get_current s now = (none, ⟨false, none, none⟩) ∧
      is_busy s now e = (false, ⟨false, none, none⟩) ∧
      acquire s slug eid now e = (true, ⟨true, some (slug, eid), some now⟩)) ∧
    (now - t ≤ MAX_JOB_DURATION → s.tokenHeld = true → e' ≠ ExtRead.ok none →
      get_current s now = (some j, s) ∧
      is_busy s now e' = (true, s) ∧
      acquire s slug eid now e' = (false, s)) := by
  have hstale : ∀ hgt : now - t > MAX_JOB_DURATION, isStale s now = true := by
    intro hgt
    simp [isStale, hj, ht, hgt]
  have hfresh : ∀ hle : now - t ≤ MAX_JOB_DURATION, isStale s now = false := by
    intro hle
    simp only [isStale, hj, ht, decide_eq_false_iff_not, not_lt]
    linarith
  constructor
  · intro hgt
    have h1 : forceClearStale s now = ⟨false, none, none⟩ := by
      simp [forceClearStale, hstale hgt]
    refine ⟨?_, ?_, ?_⟩
    · simp [get_current, h1]
    · cases e with
      | fail => simp [is_busy, h1, syncWithStatusService]
      | ok j0 => simp [is_busy, h1, syncWithStatusService]
    · cases e with
      | fail => simp [acquire, h1, syncWithStatusService]
      | ok j0 => simp [acquire, h1, syncWithStatusService]
  · intro hle htok hne
    have h1 : forceClearStale s now = s := by
      simp [forceClearStale, hfresh hle]
    have h2 : syncWithStatusService s e' = s := by
      cases e' with
      | fail => rfl
      | ok j0 =>
          cases j0 with
          | none => exact absurd rfl hne
          | some j1 => simp [syncWithStatusService]
    refine ⟨?_, ?_, ?_⟩
    · simp [get_current, h1, hj]
    · simp [is_busy, h1, h2, hj]
    · simp [acquire, h1, h2, htok]

/-- Witness for C3: a concrete stale lease (acquired at `t = 0`, inspected at
`t = 2000`) is cleared by `get_current`, and a concrete fresh lease
(inspected at `t = 100`) survives `is_busy` and makes a competing `acquire`
fail. -/
theorem stale_lease_cleared_fresh_lease_kept_witness :
    (get_current ⟨true, some ("p", "e"), some 0⟩ 2000 =
      (none, ⟨false, none, none⟩)) ∧
    (is_busy ⟨true, some ("p", "e"), some 0⟩ 100 (ExtRead.ok (some ("p", "e"))) =
      (true, ⟨true, some ("p", "e"), some 0⟩)) ∧
    (acquire ⟨true, some ("p", "e"), some 0⟩ "q" "f" 100 (ExtRead.ok (some ("p", "e"))) =
      (false, ⟨true, some ("p", "e"), some 0⟩)) := by
  refine ⟨?_, ?_, ?_⟩
  · exact ((stale_lease_cleared_fresh_lease_kept ⟨true, some ("p", "e"), some 0⟩
      ("p", "e") 0 2000 "q" "f" ExtRead.fail ExtRead.fail rfl rfl).1 (by norm_num [MAX_JOB_DURATION])).1
  · exact ((stale_lease_cleared_fresh_lease_kept ⟨true, some ("p", "e"), some 0⟩
      ("p", "e") 0 100 "q" "f" ExtRead.fail (ExtRead.ok (some ("p", "e"))) rfl rfl).2
      (by norm_num [MAX_JOB_DURATION]) rfl (by simp)).2.1
  · exact ((stale_lease_cleared_fresh_lease_kept ⟨true, some ("p", "e"), some 0⟩
      ("p", "e") 0 100 "q" "f" ExtRead.fail (ExtRead.ok (some ("p", "e"))) rfl rfl).2
      (by norm_num [MAX_JOB_DURATION]) rfl (by simp)).2.2

end MinusPod
